import Mathlib

/-!
Verification development for the RAJA segmented index-set model and the
generic reduction-variable engine.

The index-set part shallowly embeds `src/sources/HybridISet.cxx`
(`HybridISet`, its `add*` methods and the two-pass builder
`buildHybridISet`).  The segment classes `RangeISet` / `UnstructuredISet`
and the constants `RANGE_ALIGN` / `RANGE_MIN_LENGTH` live in the header
`RAJA/HybridISet.hxx`, which is not part of the sources; they are modelled
from the spec and kept as parameters where they are tunable constants.

The reduction part shallowly embeds
`src/include/RAJA/policy/openmp/reduce.hpp`: the tree-merge
(`omp_reduce`) reducers as an explicit state machine over instances with a
parent pointer, and the slot-pool (`omp_reduce_ordered`) reducers as
records holding the per-thread slot array and the cached accumulator.
Machine integers (`Int`, the reduced values at `T = Int`) are
modelled as `Int`; no claim in scope depends on overflow behaviour.
-/

namespace RAJA

/-- Modelled from the spec: `RangeISet` (declared in the missing header
`RAJA/HybridISet.hxx`): a Range segment holding `(begin, end)`,
representing the consecutive integers `begin, begin+1, ..., end-1`.
The C++ `Index_type` (a signed integer type) is modelled as `Int`. -/
structure RangeISet where
  m_begin : Int
  m_end : Int
deriving DecidableEq, Repr

/-- Modelled from the spec: length of a Range segment is `end - begin`. -/
def RangeISet.getLength (s : RangeISet) : Int := s.m_end - s.m_begin

/-- Enumeration of a Range segment: `begin, begin+1, ..., end-1`. -/
def RangeISet.enum (s : RangeISet) : List Int :=
  (List.range (s.m_end - s.m_begin).toNat).map (fun k : Nat => s.m_begin + (k : Int))

/-- Modelled from the spec: `UnstructuredISet` (declared in the missing header
`RAJA/HybridISet.hxx`): a List segment holding an owned, deep copy of an
index array. -/
structure UnstructuredISet where
  m_indx : List Int
deriving DecidableEq, Repr

/-- Modelled from the spec: length of a List segment is its stored length. -/
def UnstructuredISet.getLength (s : UnstructuredISet) : Int := s.m_indx.length

/-- Enumeration of a List segment: its stored indices in order. -/
def UnstructuredISet.enum (s : UnstructuredISet) : List Int := s.m_indx

/-- A `HybridISet::Segment`: the type tag `m_type` together with the owned
payload `m_segment`.  The tag values `_Range_` and `_Unstructured_` carry
their payload; `unknownKind` stands for any tag value that matches no case
of the dispatch switches (the `default :` branches of the source). -/
inductive Segment
  | range (is : RangeISet)
  | unstructured (is : UnstructuredISet)
  | unknownKind
deriving DecidableEq, Repr

/-- Enumeration of one segment.  A segment of unrecognized kind is skipped
by every traversal of the source, so it enumerates nothing. -/
def Segment.enum : Segment → List Int
  | .range is => is.enum
  | .unstructured is => is.enum
  | .unknownKind => []

/-- The hybrid index set: cached total length `m_len` and the ordered,
owning sequence of segments `m_segments`. -/
structure HybridISet where
  m_len : Int := 0
  m_segments : List Segment := []
deriving DecidableEq, Repr

/-- `HybridISet::getLength`. -/
def HybridISet.getLength (h : HybridISet) : Int := h.m_len

/-- `HybridISet::getNumSegments`. -/
def HybridISet.getNumSegments (h : HybridISet) : Nat := h.m_segments.length

/-- Enumeration of the whole index set: segments in container order, each
segment's indices in order. -/
def HybridISet.enum (h : HybridISet) : List Int :=
  (h.m_segments.map Segment.enum).flatten

/-- `HybridISet::addRangeIndices(begin, end)`: push a new `RangeISet`
segment and grow `m_len` by its length. -/
def HybridISet.addRangeIndices (h : HybridISet) (b e : Int) : HybridISet :=
  { m_len := h.m_len + RangeISet.getLength ⟨b, e⟩,
    m_segments := h.m_segments ++ [Segment.range ⟨b, e⟩] }

/-- `HybridISet::addUnstructuredIndices(indx, len)`: push a new
`UnstructuredISet` segment holding a copy of the `len` indices at `indx`
(the caller passes the copied slice as a list) and grow `m_len`. -/
def HybridISet.addUnstructuredIndices (h : HybridISet) (indx : List Int) : HybridISet :=
  { m_len := h.m_len + UnstructuredISet.getLength ⟨indx⟩,
    m_segments := h.m_segments ++ [Segment.unstructured ⟨indx⟩] }

/-!
The builder `buildHybridISet(indices_in, length)`.

The two `for (Int ii=1; ii<length; ++ii)` loops read
`indices_in[ii]` once per iteration; they are embedded as structural
recursion over the yet unread suffix of the array (`rest`), with the loop
counter `ii` carried alongside because the build pass uses it to form the
positions `ii-1` / `ii` stored in `dobegin` between emissions.

`RANGE_ALIGN` (`align`) and `RANGE_MIN_LENGTH` (`minLen`) are the
compile-time constants of the missing header, kept as parameters; the
alignment tests `scanVal % RANGE_ALIGN == 0` agree between C++ `%` and
`Int.emod` because both remainders vanish exactly on multiples.
-/

/-- Statistics pass of `buildHybridISet`: the first loop.  State is
`(scanVal, inrange, sliceCount, docount)`; returns the state after the
loop has consumed the whole suffix. -/
def statsLoop (align : Int) : List Int → Int → Int → Int → Int → Int × Int × Int × Int
  | [], scanVal, inrange, sliceCount, docount => (scanVal, inrange, sliceCount, docount)
  | lookAhead :: rest, scanVal, inrange, sliceCount, docount =>
    let inrange1 :=
      if inrange = -1 then
        if lookAhead = scanVal + 1 ∧ scanVal % align = 0 then 1 else 0
      else inrange
    if lookAhead = scanVal + 1 then
      if inrange1 = 0 ∧ scanVal % align = 0 then
        -- emit pending singletons cost, open a range, then count scanVal
        let docount1 := if sliceCount ≠ 0 then docount + 1 + sliceCount else docount
        statsLoop align rest lookAhead 1 (0 + 1) docount1
      else
        statsLoop align rest lookAhead inrange1 (sliceCount + 1) docount
    else
      if inrange1 = 1 then
        -- ++sliceCount; docount += 2; inrange = 0; sliceCount = 0
        statsLoop align rest lookAhead 0 0 (docount + 2)
      else
        statsLoop align rest lookAhead inrange1 (sliceCount + 1) docount

/-- Statistics pass including the post-loop accounting: returns the final
`docount` (the estimated encoded cost).  Only called when `length ≥ 1`. -/
def gatherStats (align : Int) (A : List Int) : Int :=
  let scanVal0 := A.getD 0 0
  let r := statsLoop align (A.drop 1) scanVal0 (-1) 0 0
  let scanVal := r.1
  let inrange := r.2.1
  let sliceCount := r.2.2.1
  let docount := r.2.2.2
  let docount2 :=
    if inrange ≠ -1 then
      if inrange ≠ 0 then docount + 2
      else docount + 1 + (sliceCount + 1)
    else if scanVal ≠ -1 then docount + 2
    else docount
  docount2 + 1

/-- The `if (inrange == -1)` initialization step at the top of the build
pass loop body: yields the updated `(inrange, dobegin)` pair. -/
def rangeInit (align : Int) (ii : Nat) (lookAhead scanVal inrange dobegin : Int) :
    Int × Int :=
  if inrange = -1 then
    if lookAhead = scanVal + 1 ∧ scanVal % align = 0 then (1, dobegin)
    else (0, (ii : Int) - 1)
  else (inrange, dobegin)

/-- Build pass of `buildHybridISet`: the second loop plus its post-loop
emissions.  `A` is the whole input array (needed for the
`&indices_in[dobegin]` slices), `rest` the unread suffix starting at
position `ii`. -/
def buildLoop (A : List Int) (align : Int) :
    List Int → Nat → Int → Int → Int → Int → HybridISet → HybridISet
  | [], _ii, scanVal, inrange, sliceCount, dobegin, hindex =>
    -- post-loop emissions
    if inrange ≠ -1 then
      if inrange ≠ 0 then
        hindex.addRangeIndices dobegin (dobegin + (sliceCount + 1))
      else
        hindex.addUnstructuredIndices ((A.drop dobegin.toNat).take (sliceCount + 1).toNat)
    else if scanVal ≠ -1 then
      hindex.addUnstructuredIndices [scanVal]
    else hindex
  | lookAhead :: rest, ii, scanVal, inrange, sliceCount, dobegin, hindex =>
    let ir := rangeInit align ii lookAhead scanVal inrange dobegin
    if lookAhead = scanVal + 1 then
      if ir.1 = 0 ∧ scanVal % align = 0 then
        let hindex1 :=
          if sliceCount ≠ 0 then
            hindex.addUnstructuredIndices ((A.drop ir.2.toNat).take sliceCount.toNat)
          else hindex
        -- inrange = 1; dobegin = scanVal; sliceCount = 0; ++sliceCount
        buildLoop A align rest (ii + 1) lookAhead 1 (0 + 1) scanVal hindex1
      else
        buildLoop A align rest (ii + 1) lookAhead ir.1 (sliceCount + 1) ir.2 hindex
    else
      if ir.1 = 1 then
        -- ++sliceCount; emit range; inrange = 0; sliceCount = 0; dobegin = ii
        let hindex1 := hindex.addRangeIndices ir.2 (ir.2 + (sliceCount + 1))
        buildLoop A align rest (ii + 1) lookAhead 0 0 (ii : Int) hindex1
      else
        buildLoop A align rest (ii + 1) lookAhead ir.1 (sliceCount + 1) ir.2 hindex

/-- `buildHybridISet(indices_in, length)` with the tunable constants
`RANGE_ALIGN = align` and `RANGE_MIN_LENGTH = minLen` as parameters.
The input array is `A`; `length` is its length. -/
def buildHybridISet (align minLen : Int) (A : List Int) : HybridISet :=
  let hindex : HybridISet := {}
  let length : Int := A.length
  if length > minLen then
    let docount := gatherStats align A
    if docount < (length * (align - 1)) / align then
      let scanVal := A.getD 0 0
      buildLoop A align (A.drop 1) 1 scanVal (-1) 0 scanVal hindex
    else
      hindex.addUnstructuredIndices A
  else
    hindex.addUnstructuredIndices A

/-!  Basic lemmas about the index-set container and segment enumerations. -/

theorem enum_addRangeIndices (h : HybridISet) (b e : Int) :
    (h.addRangeIndices b e).enum = h.enum ++ RangeISet.enum ⟨b, e⟩ := by
  simp [HybridISet.addRangeIndices, HybridISet.enum, Segment.enum]

theorem enum_addUnstructuredIndices (h : HybridISet) (l : List Int) :
    (h.addUnstructuredIndices l).enum = h.enum ++ l := by
  simp [HybridISet.addUnstructuredIndices, HybridISet.enum, Segment.enum,
    UnstructuredISet.enum]

theorem m_len_addRangeIndices (h : HybridISet) (b e : Int) :
    (h.addRangeIndices b e).m_len = h.m_len + (e - b) := rfl

theorem m_len_addUnstructuredIndices (h : HybridISet) (l : List Int) :
    (h.addUnstructuredIndices l).m_len = h.m_len + (l.length : Int) := rfl

theorem m_segments_addRangeIndices (h : HybridISet) (b e : Int) :
    (h.addRangeIndices b e).m_segments = h.m_segments ++ [Segment.range ⟨b, e⟩] := rfl

theorem m_segments_addUnstructuredIndices (h : HybridISet) (l : List Int) :
    (h.addUnstructuredIndices l).m_segments
      = h.m_segments ++ [Segment.unstructured ⟨l⟩] := rfl

theorem rangeISet_enum_ofNat (b : Int) (n : Nat) :
    RangeISet.enum ⟨b, b + (n : Int)⟩ = (List.range n).map (fun k : Nat => b + (k : Int)) := by
  simp [RangeISet.enum]

/-- A getD-access into a dropped list is a shifted access into the original. -/
theorem getD_drop (A : List Int) (n m : Nat) :
    (A.drop n).getD m 0 = A.getD (n + m) 0 := by
  simp [List.getD_eq_getElem?_getD, List.getElem?_drop]

/-- Reading off the head of `A.drop ii`. -/
theorem drop_eq_cons_facts (A : List Int) (ii : Nat) (x : Int) (r : List Int)
    (hd : A.drop ii = x :: r) :
    ii < A.length ∧ A.getD ii 0 = x ∧ r = A.drop (ii + 1) := by
  have hlen : ii < A.length := by
    by_contra hle
    rw [List.drop_eq_nil_of_le (by omega)] at hd
    exact List.noConfusion hd
  refine ⟨hlen, ?_, ?_⟩
  · have := getD_drop A ii 0
    rw [Nat.add_zero] at this
    rw [← this, hd]
    rfl
  · have h2 : A.drop (ii + 1) = (A.drop ii).drop 1 := by
      rw [List.drop_drop]
    rw [h2, hd]
    rfl

/-- A slice of `A` whose entries follow the pattern `b, b+1, ...` equals the
corresponding Range enumeration. -/
theorem slice_eq_rangeMap (A : List Int) (p n : Nat) (b : Int)
    (hlen : p + n ≤ A.length)
    (hrun : ∀ k : Nat, k < n → A.getD (p + k) 0 = b + (k : Int)) :
    (A.drop p).take n = (List.range n).map (fun k : Nat => b + (k : Int)) := by
  apply List.ext_get
  · rw [List.length_take, List.length_drop, List.length_map, List.length_range]
    omega
  · intro k h1 h2
    have hk : k < n := by
      rw [List.length_take, List.length_drop] at h1
      omega
    have hidx : p + k < A.length := by omega
    have hgd := hrun k hk
    rw [List.getD_eq_getElem?_getD, List.getElem?_eq_getElem hidx,
      Option.getD_some] at hgd
    simp only [List.get_eq_getElem, List.getElem_take, List.getElem_drop,
      List.getElem_map, List.getElem_range]
    exact hgd

/-- Splitting a suffix of `A` at an interior position. -/
theorem drop_decompose (A : List Int) (p n : Nat) :
    (A.drop p).take n ++ A.drop (p + n) = A.drop p := by
  have h1 : A.drop (p + n) = (A.drop p).drop n := by rw [List.drop_drop]
  rw [h1, List.take_append_drop]

theorem length_slice (A : List Int) (p n : Nat) (hlen : p + n ≤ A.length) :
    ((A.drop p).take n).length = n := by
  simp [List.length_take, List.length_drop]
  omega

theorem rangeInit_stay (align : Int) (ii : Nat) (lookAhead scanVal inrange dobegin : Int)
    (h : ¬ inrange = -1) :
    rangeInit align ii lookAhead scanVal inrange dobegin = (inrange, dobegin) :=
  if_neg h

theorem rangeInit_enter (align : Int) (ii : Nat) (lookAhead scanVal dobegin : Int)
    (h : lookAhead = scanVal + 1 ∧ scanVal % align = 0) :
    rangeInit align ii lookAhead scanVal (-1) dobegin = (1, dobegin) := by
  rw [rangeInit, if_pos rfl, if_pos h]

theorem rangeInit_nostart (align : Int) (ii : Nat) (lookAhead scanVal dobegin : Int)
    (h : ¬ (lookAhead = scanVal + 1 ∧ scanVal % align = 0)) :
    rangeInit align ii lookAhead scanVal (-1) dobegin = (0, (ii : Int) - 1) := by
  rw [rangeInit, if_pos rfl, if_neg h]

/-- Unfolding equation for `buildLoop` on the empty suffix. -/
theorem buildLoop_nil (A : List Int) (align : Int) (ii : Nat)
    (scanVal inrange sliceCount dobegin : Int) (hindex : HybridISet) :
    buildLoop A align [] ii scanVal inrange sliceCount dobegin hindex =
      if inrange ≠ -1 then
        if inrange ≠ 0 then
          hindex.addRangeIndices dobegin (dobegin + (sliceCount + 1))
        else
          hindex.addUnstructuredIndices
            ((A.drop dobegin.toNat).take (sliceCount + 1).toNat)
      else if scanVal ≠ -1 then
        hindex.addUnstructuredIndices [scanVal]
      else hindex := rfl

/-- Unfolding equation for `buildLoop` on a nonempty suffix. -/
theorem buildLoop_cons (A : List Int) (align lookAhead : Int) (rest : List Int)
    (ii : Nat) (scanVal inrange sliceCount dobegin : Int) (hindex : HybridISet) :
    buildLoop A align (lookAhead :: rest) ii scanVal inrange sliceCount dobegin hindex =
      if lookAhead = scanVal + 1 then
        if (rangeInit align ii lookAhead scanVal inrange dobegin).1 = 0 ∧
            scanVal % align = 0 then
          buildLoop A align rest (ii + 1) lookAhead 1 (0 + 1) scanVal
            (if sliceCount ≠ 0 then
              hindex.addUnstructuredIndices
                ((A.drop (rangeInit align ii lookAhead scanVal inrange dobegin).2.toNat).take
                  sliceCount.toNat)
            else hindex)
        else
          buildLoop A align rest (ii + 1) lookAhead
            (rangeInit align ii lookAhead scanVal inrange dobegin).1 (sliceCount + 1)
            (rangeInit align ii lookAhead scanVal inrange dobegin).2 hindex
      else
        if (rangeInit align ii lookAhead scanVal inrange dobegin).1 = 1 then
          buildLoop A align rest (ii + 1) lookAhead 0 0 (ii : Int)
            (hindex.addRangeIndices (rangeInit align ii lookAhead scanVal inrange dobegin).2
              ((rangeInit align ii lookAhead scanVal inrange dobegin).2 + (sliceCount + 1)))
        else
          buildLoop A align rest (ii + 1) lookAhead
            (rangeInit align ii lookAhead scanVal inrange dobegin).1 (sliceCount + 1)
            (rangeInit align ii lookAhead scanVal inrange dobegin).2 hindex := rfl

/-- A segment emitted by the build pass: Range segments start aligned and
are nonempty-or-empty in the right order. -/
def GoodSeg (align : Int) : Segment → Prop
  | .range is => is.m_begin % align = 0 ∧ is.m_begin ≤ is.m_end
  | .unstructured _ => True
  | .unknownKind => True

/-- Invariant of the build pass at the top of the loop iteration that will
read position `ii`.  `pstart` is the array position from which nothing has
been emitted yet; positions `0 .. pstart-1` are exactly the already-emitted
ones. -/
def LoopInv (A : List Int) (align : Int) (ii pstart : Nat)
    (scanVal inrange sliceCount dobegin : Int) : Prop :=
  1 ≤ ii ∧ ii ≤ A.length ∧ scanVal = A.getD (ii - 1) 0 ∧
  ((inrange = -1 ∧ ii = 1 ∧ sliceCount = 0 ∧ dobegin = scanVal ∧ pstart = 0 ∧
      2 ≤ A.length) ∨
   (inrange = 0 ∧ dobegin = (pstart : Int) ∧
      sliceCount = (ii : Int) - 1 - (pstart : Int) ∧ pstart ≤ ii - 1) ∨
   (inrange = 1 ∧ dobegin % align = 0 ∧
      sliceCount = (ii : Int) - 1 - (pstart : Int) ∧ pstart + 1 ≤ ii - 1 ∧
      (∀ k : Nat, pstart + k ≤ ii - 1 → A.getD (pstart + k) 0 = dobegin + (k : Int))))

/-- Master lemma for the build pass: under the loop invariant, running the
loop appends to `h` exactly segments enumerating `A.drop pstart`, grows
`m_len` by that many indices, and appends only well-formed segments. -/
theorem buildLoop_spec (A : List Int) (align : Int) :
    ∀ (rest : List Int) (ii pstart : Nat) (scanVal inrange sliceCount dobegin : Int)
      (h : HybridISet),
    rest = A.drop ii →
    LoopInv A align ii pstart scanVal inrange sliceCount dobegin →
    (buildLoop A align rest ii scanVal inrange sliceCount dobegin h).enum
        = h.enum ++ A.drop pstart
    ∧ (buildLoop A align rest ii scanVal inrange sliceCount dobegin h).m_len
        = h.m_len + ((A.length : Int) - (pstart : Int))
    ∧ ∀ s ∈ (buildLoop A align rest ii scanVal inrange sliceCount dobegin h).m_segments,
        s ∈ h.m_segments ∨ GoodSeg align s := by
  intro rest
  induction rest with
  | nil =>
    intro ii pstart scanVal inrange sliceCount dobegin h hrest hinv
    obtain ⟨hii1, hiiL, hscan, hcase⟩ := hinv
    have hlenii : ii = A.length := by
      have hle : A.length ≤ ii := by
        by_contra hlt
        have hne : A.drop ii ≠ [] := by
          intro hnil
          rw [List.drop_eq_nil_iff] at hnil
          omega
        exact hne hrest.symm
      omega
    rcases hcase with ⟨hinr, hi1, hsc0, hdb, hps0, hA2⟩ | ⟨hinr, hdb, hsc, hps⟩ |
      ⟨hinr, hal, hsc, hps, hrun⟩
    · omega
    · -- exit in list mode: emit the trailing list segment
      subst hinr
      rw [buildLoop_nil, if_pos (by decide), if_neg (by decide)]
      have h1 : dobegin.toNat = pstart := by omega
      have h2 : (sliceCount + 1).toNat = A.length - pstart := by omega
      rw [h1, h2]
      have h3 : A.length - pstart = (A.drop pstart).length := (List.length_drop ..).symm
      rw [h3, List.take_length]
      refine ⟨enum_addUnstructuredIndices h _, ?_, ?_⟩
      · rw [m_len_addUnstructuredIndices, List.length_drop]
        omega
      · intro s hs
        rw [m_segments_addUnstructuredIndices, List.mem_append] at hs
        rcases hs with hs | hs
        · exact Or.inl hs
        · right
          simp only [List.mem_singleton] at hs
          subst hs
          trivial
    · -- exit in range mode: emit the trailing range segment
      subst hinr
      rw [buildLoop_nil, if_pos (by decide), if_pos (by decide)]
      have hn1 : sliceCount + 1 = ((A.length - pstart : Nat) : Int) := by omega
      refine ⟨?_, ?_, ?_⟩
      · rw [enum_addRangeIndices, hn1, rangeISet_enum_ofNat]
        have hslice := slice_eq_rangeMap A pstart (A.length - pstart) dobegin
          (by omega) (fun k hk => hrun k (by omega))
        rw [← hslice]
        have h3 : A.length - pstart = (A.drop pstart).length := (List.length_drop ..).symm
        rw [h3, List.take_length]
      · rw [m_len_addRangeIndices]
        omega
      · intro s hs
        rw [m_segments_addRangeIndices, List.mem_append] at hs
        rcases hs with hs | hs
        · exact Or.inl hs
        · right
          simp only [List.mem_singleton] at hs
          subst hs
          show dobegin % align = 0 ∧ dobegin ≤ dobegin + (sliceCount + 1)
          exact ⟨hal, by omega⟩
  | cons lookAhead rest ih =>
    intro ii pstart scanVal inrange sliceCount dobegin h hrest hinv
    obtain ⟨hii1, hiiL, hscan, hcase⟩ := hinv
    obtain ⟨hiiLt, hlook, hrest2⟩ := drop_eq_cons_facts A ii lookAhead rest hrest.symm
    rcases hcase with ⟨hinr, hi1, hsc0, hdb, hps0, hA2⟩ | ⟨hinr, hdb, hsc, hps⟩ |
      ⟨hinr, hal, hsc, hps, hrun⟩
    · -- inrange = -1 : first iteration, ii = 1
      subst hinr hi1 hsc0 hps0
      by_cases hc1 : lookAhead = scanVal + 1 ∧ scanVal % align = 0
      · -- an aligned range starts at position 0
        have hre := rangeInit_enter align 1 lookAhead scanVal dobegin hc1
        rw [buildLoop_cons, hre, if_pos hc1.1, if_neg (fun hq => absurd hq.1 (by simp))]
        refine ih 2 0 _ _ _ _ _ hrest2 ?_
        refine ⟨by omega, by omega, by simpa using hlook.symm, Or.inr (Or.inr ?_)⟩
        refine ⟨rfl, ?_, by norm_num, by omega, ?_⟩
        · show dobegin % align = 0
          rw [hdb]
          exact hc1.2
        · intro k hk
          show A.getD (0 + k) 0 = dobegin + (k : Int)
          have hk01 : k = 0 ∨ k = 1 := by omega
          rcases hk01 with hk0 | hk1
          · subst hk0
            simpa [hdb] using hscan.symm
          · subst hk1
            have hg : A.getD (0 + 1) 0 = lookAhead := by simpa using hlook
            rw [hg, hc1.1, hdb]
            norm_num
      · -- no range starts: open a list stretch at position 0
        have hre := rangeInit_nostart align 1 lookAhead scanVal dobegin hc1
        have hnext : LoopInv A align 2 0 lookAhead ((0 : Int), ((1 : Nat) : Int) - 1).1
            (0 + 1) ((0 : Int), ((1 : Nat) : Int) - 1).2 := by
          refine ⟨by omega, by omega, by simpa using hlook.symm, Or.inr (Or.inl ?_)⟩
          exact ⟨rfl, by norm_num, by norm_num, by omega⟩
        by_cases hla : lookAhead = scanVal + 1
        · rw [buildLoop_cons, hre, if_pos hla, if_neg (fun hq => hc1 ⟨hla, hq.2⟩)]
          exact ih 2 0 _ _ _ _ _ hrest2 hnext
        · rw [buildLoop_cons, hre, if_neg hla, if_neg (by decide)]
          exact ih 2 0 _ _ _ _ _ hrest2 hnext
    · -- inrange = 0 : in list mode
      subst hinr
      have hre := rangeInit_stay align ii lookAhead scanVal 0 dobegin (by decide)
      by_cases hla : lookAhead = scanVal + 1
      · by_cases halign : scanVal % align = 0
        · -- close the pending list segment, open a range at position ii-1
          rw [buildLoop_cons, hre, if_pos hla, if_pos ⟨rfl, halign⟩]
          have hinv2 : LoopInv A align (ii + 1) (ii - 1) lookAhead 1 (0 + 1) scanVal := by
            refine ⟨by omega, by omega, by simpa using hlook.symm, Or.inr (Or.inr ?_)⟩
            refine ⟨rfl, halign, by omega, by omega, ?_⟩
            intro k hk
            have hk01 : k = 0 ∨ k = 1 := by omega
            rcases hk01 with hk0 | hk1
            · subst hk0
              have hidx : ii - 1 + 0 = ii - 1 := by omega
              rw [hidx]
              simpa using hscan.symm
            · subst hk1
              have hidx : ii - 1 + 1 = ii := by omega
              rw [hidx, hlook, hla]
              norm_num
          by_cases hsc0 : sliceCount = 0
          · rw [if_neg (not_not_intro hsc0)]
            have hpse2 : pstart = ii - 1 := by omega
            rw [← hpse2] at hinv2
            exact ih (ii + 1) pstart _ _ _ _ _ hrest2 hinv2
          · rw [if_pos hsc0]
            rw [show ((0 : Int), dobegin).2 = dobegin from rfl]
            have hton : dobegin.toNat = pstart := by omega
            have hton2 : sliceCount.toNat = ii - 1 - pstart := by omega
            rw [hton, hton2]
            obtain ⟨ih1, ih2, ih3⟩ :=
              ih (ii + 1) (ii - 1) lookAhead 1 (0 + 1) scanVal
                (h.addUnstructuredIndices ((A.drop pstart).take (ii - 1 - pstart)))
                hrest2 hinv2
            refine ⟨?_, ?_, ?_⟩
            · rw [ih1, enum_addUnstructuredIndices, List.append_assoc]
              have hdec : (A.drop pstart).take (ii - 1 - pstart) ++ A.drop (ii - 1)
                  = A.drop pstart := by
                have hq : A.drop (ii - 1) = A.drop (pstart + (ii - 1 - pstart)) := by
                  have hq2 : pstart + (ii - 1 - pstart) = ii - 1 := by omega
                  rw [hq2]
                rw [hq, drop_decompose]
              rw [hdec]
            · rw [ih2, m_len_addUnstructuredIndices,
                length_slice A pstart (ii - 1 - pstart) (by omega)]
              omega
            · intro s hs
              rcases ih3 s hs with hs2 | hs2
              · rw [m_segments_addUnstructuredIndices, List.mem_append] at hs2
                rcases hs2 with hs3 | hs3
                · exact Or.inl hs3
                · right
                  simp only [List.mem_singleton] at hs3
                  subst hs3
                  trivial
              · exact Or.inr hs2
        · -- continue the list stretch
          rw [buildLoop_cons, hre, if_pos hla, if_neg (fun hq => halign hq.2)]
          refine ih (ii + 1) pstart _ _ _ _ _ hrest2 ?_
          refine ⟨by omega, by omega, by simpa using hlook.symm, Or.inr (Or.inl ?_)⟩
          exact ⟨rfl, hdb, by omega, by omega⟩
      · -- continue the list stretch
        rw [buildLoop_cons, hre, if_neg hla, if_neg (by simp)]
        refine ih (ii + 1) pstart _ _ _ _ _ hrest2 ?_
        refine ⟨by omega, by omega, by simpa using hlook.symm, Or.inr (Or.inl ?_)⟩
        exact ⟨rfl, hdb, by omega, by omega⟩
    · -- inrange = 1 : in range mode
      subst hinr
      have hre := rangeInit_stay align ii lookAhead scanVal 1 dobegin (by decide)
      by_cases hla : lookAhead = scanVal + 1
      · -- extend the range through position ii
        rw [buildLoop_cons, hre, if_pos hla, if_neg (fun hq => absurd hq.1 (by simp))]
        refine ih (ii + 1) pstart _ _ _ _ _ hrest2 ?_
        refine ⟨by omega, by omega, by simpa using hlook.symm, Or.inr (Or.inr ?_)⟩
        refine ⟨rfl, hal, by omega, by omega, ?_⟩
        intro k hk
        show A.getD (pstart + k) 0 = dobegin + (k : Int)
        by_cases hkold : pstart + k ≤ ii - 1
        · exact hrun k hkold
        · have hkval : pstart + k = ii := by omega
          have hprev := hrun (ii - 1 - pstart) (by omega)
          have hidx : pstart + (ii - 1 - pstart) = ii - 1 := by omega
          rw [hidx] at hprev
          have hg : A.getD (pstart + k) 0 = lookAhead := by rw [hkval, hlook]
          rw [hg, hla, hscan, hprev]
          omega
      · -- the run breaks: emit the range, open a list stretch at position ii
        rw [buildLoop_cons, hre, if_neg hla, if_pos rfl]
        rw [show ((1 : Int), dobegin).2 = dobegin from rfl]
        have hinv2 : LoopInv A align (ii + 1) ii lookAhead 0 0 ((ii : Nat) : Int) := by
          refine ⟨by omega, by omega, by simpa using hlook.symm, Or.inr (Or.inl ?_)⟩
          exact ⟨rfl, rfl, by omega, by omega⟩
        obtain ⟨ih1, ih2, ih3⟩ :=
          ih (ii + 1) ii lookAhead 0 0 ((ii : Nat) : Int)
            (h.addRangeIndices dobegin (dobegin + (sliceCount + 1))) hrest2 hinv2
        have hn1 : sliceCount + 1 = ((ii - pstart : Nat) : Int) := by omega
        refine ⟨?_, ?_, ?_⟩
        · rw [ih1, enum_addRangeIndices, hn1, rangeISet_enum_ofNat, List.append_assoc]
          have hslice := slice_eq_rangeMap A pstart (ii - pstart) dobegin
            (by omega) (fun k hk => hrun k (by omega))
          rw [← hslice]
          have hdec : (A.drop pstart).take (ii - pstart) ++ A.drop ii = A.drop pstart := by
            have hq : A.drop ii = A.drop (pstart + (ii - pstart)) := by
              have hq2 : pstart + (ii - pstart) = ii := by omega
              rw [hq2]
            rw [hq, drop_decompose]
          rw [hdec]
        · rw [ih2, m_len_addRangeIndices]
          omega
        · intro s hs
          rcases ih3 s hs with hs2 | hs2
          · rw [m_segments_addRangeIndices, List.mem_append] at hs2
            rcases hs2 with hs3 | hs3
            · exact Or.inl hs3
            · right
              simp only [List.mem_singleton] at hs3
              subst hs3
              show dobegin % align = 0 ∧ dobegin ≤ dobegin + (sliceCount + 1)
              exact ⟨hal, by omega⟩
          · exact Or.inr hs2

/-!  From the loop lemma to the builder entry point. -/

theorem empty_enum : ({} : HybridISet).enum = [] := rfl

theorem empty_m_len : ({} : HybridISet).m_len = 0 := rfl

theorem empty_m_segments : ({} : HybridISet).m_segments = [] := rfl

/-- The statistics pass never drives `sliceCount` or `docount` negative. -/
theorem statsLoop_nonneg (align : Int) :
    ∀ (rest : List Int) (scanVal inrange sliceCount docount : Int),
    0 ≤ sliceCount → 0 ≤ docount →
    0 ≤ (statsLoop align rest scanVal inrange sliceCount docount).2.2.1 ∧
    0 ≤ (statsLoop align rest scanVal inrange sliceCount docount).2.2.2 := by
  intro rest
  induction rest with
  | nil =>
    intro sv ir sc dc h1 h2
    exact ⟨h1, h2⟩
  | cons la rest ih =>
    intro sv ir sc dc h1 h2
    simp only [statsLoop]
    split_ifs <;> exact ih _ _ _ _ (by omega) (by omega)

/-- The estimated cost computed by the statistics pass is at least 1. -/
theorem gatherStats_pos (align : Int) (A : List Int) : 1 ≤ gatherStats align A := by
  have hmono := statsLoop_nonneg align (A.drop 1) (A.getD 0 0) (-1) 0 0
    (le_refl 0) (le_refl 0)
  simp only [gatherStats]
  split_ifs <;> omega

/-- Enumeration equivalence for the builder: the output enumerates exactly
the input, in order, whatever branch and segments the builder chose. -/
theorem buildHybridISet_enum (align minLen : Int) (ha : 0 < align) (hm : 0 ≤ minLen)
    (A : List Int) : (buildHybridISet align minLen A).enum = A := by
  simp only [buildHybridISet]
  by_cases hlen : (A.length : Int) > minLen
  · rw [if_pos hlen]
    by_cases hcut : gatherStats align A < ((A.length : Int) * (align - 1)) / align
    · rw [if_pos hcut]
      have hA1 : 1 ≤ A.length := by omega
      have hA2 : 2 ≤ A.length := by
        by_contra hq
        have hA1e : A.length = 1 := by omega
        have hz : ((A.length : Int) * (align - 1)) / align = 0 := by
          rw [hA1e]
          have hz2 : (((1 : Nat) : Int) * (align - 1)) = align - 1 := by ring
          rw [hz2]
          exact Int.ediv_eq_zero_of_lt (by omega) (by omega)
        have hpos := gatherStats_pos align A
        omega
      have hspec := buildLoop_spec A align (A.drop 1) 1 0 (A.getD 0 0) (-1) 0
        (A.getD 0 0) {} rfl
        ⟨le_refl 1, by omega, rfl, Or.inl ⟨rfl, rfl, rfl, rfl, rfl, hA2⟩⟩
      rw [hspec.1, empty_enum, List.drop_zero, List.nil_append]
    · rw [if_neg hcut, enum_addUnstructuredIndices, empty_enum, List.nil_append]
  · rw [if_neg hlen, enum_addUnstructuredIndices, empty_enum, List.nil_append]

/-- Length preservation for the builder: the cached total length equals the
input length on every code path. -/
theorem buildHybridISet_len (align minLen : Int) (ha : 0 < align) (hm : 0 ≤ minLen)
    (A : List Int) : (buildHybridISet align minLen A).m_len = (A.length : Int) := by
  simp only [buildHybridISet]
  by_cases hlen : (A.length : Int) > minLen
  · rw [if_pos hlen]
    by_cases hcut : gatherStats align A < ((A.length : Int) * (align - 1)) / align
    · rw [if_pos hcut]
      have hA1 : 1 ≤ A.length := by omega
      have hA2 : 2 ≤ A.length := by
        by_contra hq
        have hA1e : A.length = 1 := by omega
        have hz : ((A.length : Int) * (align - 1)) / align = 0 := by
          rw [hA1e]
          have hz2 : (((1 : Nat) : Int) * (align - 1)) = align - 1 := by ring
          rw [hz2]
          exact Int.ediv_eq_zero_of_lt (by omega) (by omega)
        have hpos := gatherStats_pos align A
        omega
      have hspec := buildLoop_spec A align (A.drop 1) 1 0 (A.getD 0 0) (-1) 0
        (A.getD 0 0) {} rfl
        ⟨le_refl 1, by omega, rfl, Or.inl ⟨rfl, rfl, rfl, rfl, rfl, hA2⟩⟩
      rw [hspec.2.1, empty_m_len]
      push_cast
      ring
    · rw [if_neg hcut, m_len_addUnstructuredIndices, empty_m_len, zero_add]
  · rw [if_neg hlen, m_len_addUnstructuredIndices, empty_m_len, zero_add]

/-- Every Range segment the builder emits starts at an aligned value and is
nonempty; List segments and the unknown tag carry no Range obligation. -/
theorem buildHybridISet_segments_good (align minLen : Int) (ha : 0 < align)
    (hm : 0 ≤ minLen) (A : List Int) :
    ∀ s ∈ (buildHybridISet align minLen A).m_segments, GoodSeg align s := by
  simp only [buildHybridISet]
  by_cases hlen : (A.length : Int) > minLen
  · rw [if_pos hlen]
    by_cases hcut : gatherStats align A < ((A.length : Int) * (align - 1)) / align
    · rw [if_pos hcut]
      have hA1 : 1 ≤ A.length := by omega
      have hA2 : 2 ≤ A.length := by
        by_contra hq
        have hA1e : A.length = 1 := by omega
        have hz : ((A.length : Int) * (align - 1)) / align = 0 := by
          rw [hA1e]
          have hz2 : (((1 : Nat) : Int) * (align - 1)) = align - 1 := by ring
          rw [hz2]
          exact Int.ediv_eq_zero_of_lt (by omega) (by omega)
        have hpos := gatherStats_pos align A
        omega
      have hspec := buildLoop_spec A align (A.drop 1) 1 0 (A.getD 0 0) (-1) 0
        (A.getD 0 0) {} rfl
        ⟨le_refl 1, by omega, rfl, Or.inl ⟨rfl, rfl, rfl, rfl, rfl, hA2⟩⟩
      intro s hs
      rcases hspec.2.2 s hs with hmem | hgood
      · rw [empty_m_segments] at hmem
        exact absurd hmem (List.not_mem_nil s)
      · exact hgood
    · rw [if_neg hcut]
      intro s hs
      rw [m_segments_addUnstructuredIndices, empty_m_segments, List.nil_append,
        List.mem_singleton] at hs
      subst hs
      trivial
  · rw [if_neg hlen]
    intro s hs
    rw [m_segments_addUnstructuredIndices, empty_m_segments, List.nil_append,
      List.mem_singleton] at hs
    subst hs
    trivial

/-- The enumeration of a Range segment is a chain of successive integers. -/
theorem rangeEnum_chain (b : Int) (n : Nat) :
    List.Chain' (fun x y => y = x + 1)
      ((List.range n).map (fun k : Nat => b + (k : Int))) := by
  rw [List.chain'_iff_get]
  intro i hlt
  simp only [List.length_map, List.length_range] at hlt
  simp only [List.get_eq_getElem, List.getElem_map, List.getElem_range]
  push_cast
  ring

/-!  Claim theorems about the builder. -/

/-- C1: for every index array `A` with `0 < length`, walking the Index-Set
returned by `buildHybridISet` — segments in container order, a Range
segment as `begin, begin+1, ..., end-1` and a List segment as its stored
indices in order — yields exactly `A[0], ..., A[n-1]`, regardless of which
segments the builder chose (for every positive alignment constant and
nonnegative minimum-length constant). -/
theorem builder_enumeration_equivalence (align minLen : Int)
    (ha : 0 < align) (hm : 0 ≤ minLen) (A : List Int) (hA : 0 < A.length) :
    (buildHybridISet align minLen A).enum = A :=
  buildHybridISet_enum align minLen ha hm A

theorem builder_enumeration_equivalence_witness :
    (0 : Int) < 4 ∧ (0 : Int) ≤ 2 ∧
    0 < ([0, 1, 2, 3, 4, 9, 12, 13, 14, 2] : List Int).length ∧
    (buildHybridISet 4 2 [0, 1, 2, 3, 4, 9, 12, 13, 14, 2]).enum
      = [0, 1, 2, 3, 4, 9, 12, 13, 14, 2] :=
  ⟨by decide, by decide, by decide,
    builder_enumeration_equivalence 4 2 (by decide) (by decide) _ (by decide)⟩

/-- C3: for every index array `A`, the Index-Set returned by
`buildHybridISet` has `getLength()` equal to the input length — the total
length accumulated over all emitted segments, Range and List alike, across
both the compressed and the single-List-Segment code paths. -/
theorem builder_length_preservation (align minLen : Int)
    (ha : 0 < align) (hm : 0 ≤ minLen) (A : List Int) :
    (buildHybridISet align minLen A).getLength = (A.length : Int) :=
  buildHybridISet_len align minLen ha hm A

theorem builder_length_preservation_witness :
    (0 : Int) < 4 ∧ (0 : Int) ≤ 2 ∧
    (buildHybridISet 4 2 [5, 1, 2, 9, 7, 3, 8, 4]).getLength = (8 : Int) :=
  ⟨by decide, by decide,
    builder_length_preservation 4 2 (by decide) (by decide) [5, 1, 2, 9, 7, 3, 8, 4]⟩

/-- C6 (counterexample): on empty input the builder returns an Index-Set of
length 0, but it is not segment-free — the unconditional
`addUnstructuredIndices(indices_in, length)` on the short-input path pushes
one (empty) List segment, so the claim "the set contains no segments" fails. -/
theorem builder_empty_input_counterexample :
    (buildHybridISet 4 32 []).getLength = 0 ∧
    ¬ (buildHybridISet 4 32 []).getNumSegments = 0 := by
  decide

/-- C6 (amended): for empty input, `buildHybridISet` returns an Index-Set
with `getLength() = 0` consisting of exactly one empty List segment
(which enumerates nothing). -/
theorem builder_empty_input (align minLen : Int) (hm : 0 ≤ minLen) :
    buildHybridISet align minLen [] = ⟨0, [Segment.unstructured ⟨[]⟩]⟩ := by
  simp only [buildHybridISet, List.length_nil]
  rw [if_neg (by omega)]
  rfl

theorem builder_empty_input_witness :
    (0 : Int) ≤ 32 ∧ buildHybridISet 4 32 [] = ⟨0, [Segment.unstructured ⟨[]⟩]⟩ :=
  ⟨by decide, builder_empty_input 4 32 (by decide)⟩

/-- C7: every Range segment emitted by the builder starts at a value that
is a multiple of the alignment constant, and its enumeration is a run of
strictly consecutive increasing values occurring contiguously in the input
array; no Range segment is produced for an unaligned run start. -/
theorem builder_range_segments_aligned (align minLen : Int)
    (ha : 0 < align) (hm : 0 ≤ minLen) (A : List Int) :
    ∀ s ∈ (buildHybridISet align minLen A).m_segments, ∀ b e : Int,
      s = Segment.range ⟨b, e⟩ →
      b % align = 0 ∧ List.Chain' (fun x y => y = x + 1) s.enum ∧ s.enum <:+: A := by
  intro s hs b e hse
  have hgood := buildHybridISet_segments_good align minLen ha hm A s hs
  subst hse
  have hgood2 : b % align = 0 ∧ b ≤ e := hgood
  refine ⟨hgood2.1, ?_, ?_⟩
  · exact rangeEnum_chain b (e - b).toNat
  · have henum := buildHybridISet_enum align minLen ha hm A
    have hmem : Segment.enum (Segment.range ⟨b, e⟩)
        ∈ (buildHybridISet align minLen A).m_segments.map Segment.enum :=
      List.mem_map_of_mem _ hs
    have hinf := List.infix_of_mem_flatten hmem
    have hflat : (((buildHybridISet align minLen A).m_segments.map Segment.enum).flatten)
        = A := henum
    exact hflat ▸ hinf

theorem builder_range_segments_aligned_witness :
    (0 : Int) < 4 ∧ (0 : Int) ≤ 2 ∧
    (∀ s ∈ (buildHybridISet 4 2
        [0, 1, 2, 3, 4, 5, 6, 7, 8, 9, 10, 11, 100, 101, 102, 103, 104, 105, 106,
          107]).m_segments,
      ∀ b e : Int, s = Segment.range ⟨b, e⟩ →
        b % 4 = 0 ∧ List.Chain' (fun x y => y = x + 1) s.enum ∧
        s.enum <:+: [0, 1, 2, 3, 4, 5, 6, 7, 8, 9, 10, 11, 100, 101, 102, 103, 104,
          105, 106, 107]) :=
  ⟨by decide, by decide,
    builder_range_segments_aligned 4 2 (by decide) (by decide) _⟩

/-!
The Index-Set container operations of `HybridISet.cxx` beyond the builder:
`addISet` (deep copy of one segment), the private `copy` helper (used by
the copy constructor and by `operator=` via copy-and-swap), `swap`,
`operator=`, the destructor and `print`.  The destructor and the two
traversals report an unrecognized segment kind on `std::cout` and skip it;
diagnostics are modelled as values rather than text.
-/

/-- `HybridISet::addISet(const RangeISet&)`: heap-copy the segment and push. -/
def HybridISet.addISetRange (h : HybridISet) (is : RangeISet) : HybridISet :=
  { m_len := h.m_len + is.getLength,
    m_segments := h.m_segments ++ [Segment.range is] }

/-- `HybridISet::addISet(const UnstructuredISet&)`: heap-copy and push. -/
def HybridISet.addISetUnstructured (h : HybridISet) (is : UnstructuredISet) : HybridISet :=
  { m_len := h.m_len + is.getLength,
    m_segments := h.m_segments ++ [Segment.unstructured is] }

/-- One diagnostic message printed by a `default :` branch. -/
inductive Diagnostic
  | copyCaseNotImplemented
  | dtorCaseNotImplemented
deriving DecidableEq, Repr

/-- The loop of `HybridISet::copy(other)`: dispatch on each segment's tag,
`addISet` for the known kinds, report and skip for an unknown kind. -/
def HybridISet.copyLoop : HybridISet → List Segment → HybridISet × List Diagnostic
  | t, [] => (t, [])
  | t, Segment.range is :: rest => HybridISet.copyLoop (t.addISetRange is) rest
  | t, Segment.unstructured is :: rest =>
    HybridISet.copyLoop (t.addISetUnstructured is) rest
  | t, Segment.unknownKind :: rest =>
    let r := HybridISet.copyLoop t rest
    (r.1, Diagnostic.copyCaseNotImplemented :: r.2)

/-- The copy constructor `HybridISet(const HybridISet&)`: start from
`m_len = 0`, no segments, then run `copy(other)`. -/
def HybridISet.copyCtor (other : HybridISet) : HybridISet × List Diagnostic :=
  HybridISet.copyLoop {} other.m_segments

/-- `HybridISet::swap`: exchange the two field pairs. -/
def HybridISet.swapWith (a b : HybridISet) : HybridISet × HybridISet :=
  (⟨b.m_len, b.m_segments⟩, ⟨a.m_len, a.m_segments⟩)

/-- `HybridISet::operator=(rhs)`: the address-identity test `&rhs != this`
is modelled by the `same` flag (aliasing is not value-observable); on a
distinct right-hand side, copy-construct a temporary and swap it into
`this` (the temporary is destroyed with the old segments). -/
def HybridISet.opAssign (t rhs : HybridISet) (same : Bool) : HybridISet :=
  if same then t
  else (t.swapWith (HybridISet.copyCtor rhs).1).1

/-- What the destructor observably does to one segment: free a known
payload, or report an unrecognized kind. -/
inductive DtorEvent
  | freed (s : Segment)
  | caseNotImplemented
deriving DecidableEq, Repr

def Segment.dtorEvent : Segment → DtorEvent
  | Segment.unknownKind => DtorEvent.caseNotImplemented
  | s => DtorEvent.freed s

/-- The traversal of `~HybridISet`: every segment is visited in order. -/
def HybridISet.dtorEvents (h : HybridISet) : List DtorEvent :=
  h.m_segments.map Segment.dtorEvent

/-- One line of `HybridISet::print` output. -/
inductive PrintItem
  | header (len : Int) (nsegs : Nat)
  | rangeSeg (is : RangeISet)
  | listSeg (is : UnstructuredISet)
  | caseNotImplemented
deriving DecidableEq, Repr

def Segment.printItem : Segment → PrintItem
  | Segment.range is => PrintItem.rangeSeg is
  | Segment.unstructured is => PrintItem.listSeg is
  | Segment.unknownKind => PrintItem.caseNotImplemented

/-- `HybridISet::print`: the header then each segment, in order; an
unrecognized kind prints the diagnostic line and is skipped. -/
def HybridISet.printItems (h : HybridISet) : List PrintItem :=
  PrintItem.header h.getLength h.getNumSegments :: h.m_segments.map Segment.printItem

/-- Length contribution of one segment to a recomputed `m_len`. -/
def Segment.lenContribution : Segment → Int
  | .range is => is.getLength
  | .unstructured is => is.getLength
  | .unknownKind => 0

theorem copyLoop_m_segments (segs : List Segment) : ∀ (t : HybridISet),
    (HybridISet.copyLoop t segs).1.m_segments
      = t.m_segments ++ segs.filter (fun s => s != Segment.unknownKind) := by
  induction segs with
  | nil => intro t; simp [HybridISet.copyLoop]
  | cons s rest ihr =>
    intro t
    cases s with
    | range is =>
      simp [HybridISet.copyLoop, ihr, HybridISet.addISetRange, List.filter_cons]
    | unstructured is =>
      simp [HybridISet.copyLoop, ihr, HybridISet.addISetUnstructured, List.filter_cons]
    | unknownKind =>
      simp [HybridISet.copyLoop, ihr, List.filter_cons]

theorem copyLoop_m_len (segs : List Segment) : ∀ (t : HybridISet),
    (HybridISet.copyLoop t segs).1.m_len
      = t.m_len + (segs.map Segment.lenContribution).sum := by
  induction segs with
  | nil => intro t; simp [HybridISet.copyLoop]
  | cons s rest ihr =>
    intro t
    cases s with
    | range is =>
      simp only [HybridISet.copyLoop, ihr, HybridISet.addISetRange, List.map_cons,
        List.sum_cons, Segment.lenContribution]
      ring
    | unstructured is =>
      simp only [HybridISet.copyLoop, ihr, HybridISet.addISetUnstructured, List.map_cons,
        List.sum_cons, Segment.lenContribution]
      ring
    | unknownKind =>
      simp only [HybridISet.copyLoop, ihr, List.map_cons, List.sum_cons,
        Segment.lenContribution]
      ring

theorem copyLoop_diagnostics (segs : List Segment) : ∀ (t : HybridISet),
    (HybridISet.copyLoop t segs).2
      = List.replicate (segs.count Segment.unknownKind) Diagnostic.copyCaseNotImplemented := by
  induction segs with
  | nil => intro t; simp [HybridISet.copyLoop]
  | cons s rest ihr =>
    intro t
    cases s with
    | range is =>
      rw [HybridISet.copyLoop, ihr]
      simp [List.count_cons]
    | unstructured is =>
      rw [HybridISet.copyLoop, ihr]
      simp [List.count_cons]
    | unknownKind =>
      simp only [HybridISet.copyLoop, ihr, List.count_cons]
      simp [List.replicate_succ]

theorem hybridISet_ext (x y : HybridISet)
    (h1 : x.m_len = y.m_len) (h2 : x.m_segments = y.m_segments) : x = y := by
  cases x
  cases y
  simp_all

/-- C8: an unrecognized segment kind encountered during destruction, copy,
or print is reported with a diagnostic and skipped — the payload is never
touched — and every remaining segment, before and after it, is processed
normally: the destructor still visits all other segments, the copy yields
exactly the set it would have yielded without the offending segment (plus
one diagnostic), and print emits all other segments around the diagnostic
line. -/
theorem unknown_segment_kind_skipped (pre post : List Segment) (len : Int) :
    (HybridISet.dtorEvents ⟨len, pre ++ Segment.unknownKind :: post⟩
      = pre.map Segment.dtorEvent ++ DtorEvent.caseNotImplemented ::
          post.map Segment.dtorEvent)
    ∧ ((HybridISet.copyCtor ⟨len, pre ++ Segment.unknownKind :: post⟩).1
      = (HybridISet.copyCtor ⟨len, pre ++ post⟩).1)
    ∧ ((HybridISet.copyCtor ⟨len, pre ++ Segment.unknownKind :: post⟩).2.length
      = (HybridISet.copyCtor ⟨len, pre ++ post⟩).2.length + 1)
    ∧ (HybridISet.printItems ⟨len, pre ++ Segment.unknownKind :: post⟩
      = PrintItem.header len (pre.length + 1 + post.length) ::
          (pre.map Segment.printItem ++ PrintItem.caseNotImplemented ::
            post.map Segment.printItem)) := by
  refine ⟨?_, ?_, ?_, ?_⟩
  · simp [HybridISet.dtorEvents, Segment.dtorEvent]
  · apply hybridISet_ext
    · rw [HybridISet.copyCtor, HybridISet.copyCtor, copyLoop_m_len, copyLoop_m_len]
      simp [Segment.lenContribution]
    · rw [HybridISet.copyCtor, HybridISet.copyCtor, copyLoop_m_segments,
        copyLoop_m_segments]
      simp [List.filter_append, List.filter_cons]
  · rw [HybridISet.copyCtor, HybridISet.copyCtor, copyLoop_diagnostics,
      copyLoop_diagnostics]
    simp [List.count_append, List.count_cons]
    omega
  · simp [HybridISet.printItems, Segment.printItem, HybridISet.getLength,
      HybridISet.getNumSegments]
    omega

/-- C10: assigning an Index-Set to itself is a no-op (the `&rhs != this`
test short-circuits the copy-and-swap), and assignment from a distinct
Index-Set whose segments are all of known kind and whose cached length is
consistent makes the left-hand side an exact deep copy of the right-hand
side (the right-hand side, being passed by const reference, is a value
that the operation never mutates in this functional model). -/
theorem indexset_assign_self_noop_and_deep_copy :
    (∀ t : HybridISet, HybridISet.opAssign t t true = t) ∧
    (∀ t rhs : HybridISet,
      (∀ s ∈ rhs.m_segments, s ≠ Segment.unknownKind) →
      rhs.m_len = (rhs.m_segments.map Segment.lenContribution).sum →
      HybridISet.opAssign t rhs false = rhs) := by
  constructor
  · intro t
    simp [HybridISet.opAssign]
  · intro t rhs hknown hwf
    obtain ⟨len, segs⟩ := rhs
    apply hybridISet_ext
    · simp only [HybridISet.opAssign, if_neg Bool.false_ne_true, HybridISet.swapWith,
        HybridISet.copyCtor]
      rw [copyLoop_m_len]
      simp only [empty_m_len, zero_add]
      exact hwf.symm
    · simp only [HybridISet.opAssign, if_neg Bool.false_ne_true, HybridISet.swapWith,
        HybridISet.copyCtor]
      rw [copyLoop_m_segments]
      simp only [empty_m_segments, List.nil_append]
      rw [List.filter_eq_self]
      intro a ha
      simpa using hknown a ha

theorem indexset_assign_witness :
    HybridISet.opAssign ⟨3, [Segment.range ⟨0, 3⟩]⟩
        ⟨7, [Segment.range ⟨0, 4⟩, Segment.unstructured ⟨[9, 2, 5]⟩]⟩ false
      = ⟨7, [Segment.range ⟨0, 4⟩, Segment.unstructured ⟨[9, 2, 5]⟩]⟩ ∧
    HybridISet.opAssign ⟨7, [Segment.range ⟨0, 4⟩, Segment.unstructured ⟨[9, 2, 5]⟩]⟩
        ⟨7, [Segment.range ⟨0, 4⟩, Segment.unstructured ⟨[9, 2, 5]⟩]⟩ true
      = ⟨7, [Segment.range ⟨0, 4⟩, Segment.unstructured ⟨[9, 2, 5]⟩]⟩ :=
  ⟨indexset_assign_self_noop_and_deep_copy.2 ⟨3, [Segment.range ⟨0, 3⟩]⟩
      ⟨7, [Segment.range ⟨0, 4⟩, Segment.unstructured ⟨[9, 2, 5]⟩]⟩
      (by decide) (by decide),
    indexset_assign_self_noop_and_deep_copy.1 _⟩

/-!
The `StaticIndexSet` of the unit test `test-indexsets.cpp` (the newer
IndexSet container).  Its class definition and `operator==` are not under
`src/`; they are modelled from the spec and from the behaviour pinned by
`TEST(IndexSet, compare)`, which builds `[0,10)` against `[0,5)` + `[5,10)`
and asserts the two sets compare UNEQUAL while their `getLength()` agree:
equality compares the segment sequences, not the enumerated indices.
-/

/-- Modelled from the spec: `RAJA::RangeSegment`, a `(begin, end)` pair of
consecutive indices. -/
structure RangeSegment where
  m_begin : Int
  m_end : Int
deriving DecidableEq, Repr

def RangeSegment.getLength (r : RangeSegment) : Int := r.m_end - r.m_begin

def RangeSegment.enum (r : RangeSegment) : List Int :=
  (List.range (r.m_end - r.m_begin).toNat).map (fun k : Nat => r.m_begin + (k : Int))

/-- Modelled from the spec: `RAJA::StaticIndexSet<RangeSegment>` — an
ordered, owning sequence of Range segments. -/
structure StaticIndexSet where
  segments : List RangeSegment
deriving DecidableEq, Repr

def StaticIndexSet.push_back (s : StaticIndexSet) (r : RangeSegment) : StaticIndexSet :=
  ⟨s.segments ++ [r]⟩

def StaticIndexSet.size (s : StaticIndexSet) : Nat := s.segments.length

def StaticIndexSet.getLength (s : StaticIndexSet) : Int :=
  (s.segments.map RangeSegment.getLength).sum

def StaticIndexSet.enum (s : StaticIndexSet) : List Int :=
  (s.segments.map RangeSegment.enum).flatten

/-- Modelled from the spec: the equality operator of `StaticIndexSet` as
pinned by `TEST(IndexSet, compare)` — segment count must agree and the
segments must agree pairwise. -/
def StaticIndexSet.isetEq (a b : StaticIndexSet) : Bool :=
  a.size == b.size && (List.zip a.segments b.segments).all (fun p => p.1 == p.2)

theorem zip_all_beq (xs : List RangeSegment) : ∀ (ys : List RangeSegment),
    ((xs.length == ys.length) && (List.zip xs ys).all (fun p => p.1 == p.2)) = true
      ↔ xs = ys := by
  induction xs with
  | nil =>
    intro ys
    cases ys <;> simp
  | cons x xs ihx =>
    intro ys
    cases ys with
    | nil => simp
    | cons y ys =>
      simp only [List.length_cons, List.zip_cons_cons, List.all_cons, Bool.and_eq_true,
        beq_iff_eq, List.cons.injEq]
      constructor
      · rintro ⟨hlen, hxy, hall⟩
        refine ⟨hxy, (ihx ys).mp ?_⟩
        simp only [Bool.and_eq_true, beq_iff_eq]
        exact ⟨by omega, hall⟩
      · rintro ⟨hxy, hrest⟩
        have hx2 := (ihx ys).mpr hrest
        simp only [Bool.and_eq_true, beq_iff_eq] at hx2
        exact ⟨by omega, hxy, hx2.2⟩

/-- C2 (counterexample): the two Index-Sets of `TEST(IndexSet, compare)` —
one Range segment `[0,10)` versus the two Range segments `[0,5)`,`[5,10)` —
enumerate the same indices in the same order and have equal `getLength()`,
yet the equality operator returns `false`: equality does not compare the
enumerated sequence. -/
theorem indexset_equality_counterexample :
    StaticIndexSet.enum ((StaticIndexSet.push_back ⟨[]⟩ ⟨0, 10⟩))
      = StaticIndexSet.enum (((⟨[]⟩ : StaticIndexSet).push_back ⟨0, 5⟩).push_back ⟨5, 10⟩)
    ∧ StaticIndexSet.getLength (StaticIndexSet.push_back ⟨[]⟩ ⟨0, 10⟩)
      = StaticIndexSet.getLength
          (((⟨[]⟩ : StaticIndexSet).push_back ⟨0, 5⟩).push_back ⟨5, 10⟩)
    ∧ StaticIndexSet.isetEq (StaticIndexSet.push_back ⟨[]⟩ ⟨0, 10⟩)
        (((⟨[]⟩ : StaticIndexSet).push_back ⟨0, 5⟩).push_back ⟨5, 10⟩) = false := by
  decide

/-- C2 (amended): the equality operator is structural on segments — it
returns `true` exactly when the two Index-Sets hold identical segment
sequences; Index-Sets that enumerate the same indices with different
segment boundaries compare unequal (see the counterexample). -/
theorem indexset_equality_structural (a b : StaticIndexSet) :
    StaticIndexSet.isetEq a b = true ↔ a.segments = b.segments := by
  obtain ⟨xs⟩ := a
  obtain ⟨ys⟩ := b
  exact zip_all_beq xs ys

/-!
The tree-merge (`omp_reduce`) reduction engine of
`RAJA/policy/openmp/reduce.hpp`, as an explicit state machine.  An
instance is `m_parent` (null only for the root), `m_val`, and — for
`ReduceSum` — `m_custom_init`.  Instances live in a list indexed by
creation order (the root at index 0); a destroyed instance's slot becomes
`none`.  The three events mirror the copy constructor, the update method
(`min`/`max`/`+=`/`minloc`/`maxloc`), and the destructor, which folds
`m_val` into the parent under `omp critical`.  The class-specific pieces
are parameters: `cInit` is the value the copy constructor stores into the
copy's `m_val` (for `ReduceSum`: `other.m_custom_init`; for the other four
classes: `other.m_val`), `comb` the destructor fold and `upd` the update
combine.  Values are modelled at `T = Int`.
-/

structure RedInst where
  parent : Option Nat
  val : Int
  customInit : Int
deriving DecidableEq, Repr

inductive RedEvent
  | copy (src : Nat)
  | update (tgt : Nat) (v : Int)
  | destroy (tgt : Nat)
deriving DecidableEq, Repr

/-- One event step.  The copy constructor keeps the parent the same if
non-null or sets it to the copied instance; the destructor folds the value
into the parent's value when the parent pointer is non-null.  Events
naming a dead or out-of-range instance leave the state unchanged (the
corresponding C++ would be undefined; validity is tracked separately). -/
def redStep (cInit : RedInst → Int) (comb upd : Int → Int → Int)
    (s : List (Option RedInst)) : RedEvent → List (Option RedInst)
  | .copy i =>
    match s.getD i none with
    | some inst =>
      s ++ [some ⟨some (match inst.parent with | some p => p | none => i),
        cInit inst, inst.customInit⟩]
    | none => s
  | .update i v =>
    match s.getD i none with
    | some inst => s.set i (some { inst with val := upd inst.val v })
    | none => s
  | .destroy i =>
    match s.getD i none with
    | some inst =>
      match inst.parent with
      | some p =>
        match (s.set i none).getD p none with
        | some pinst => (s.set i none).set p (some { pinst with val := comb pinst.val inst.val })
        | none => s.set i none
      | none => s.set i none
    | none => s

def redRun (cInit : RedInst → Int) (comb upd : Int → Int → Int)
    (s0 : List (Option RedInst)) (evs : List RedEvent) : List (Option RedInst) :=
  evs.foldl (redStep cInit comb upd) s0

/-- The state after `ReduceSum(init_val)` with the default initializer:
one root instance, null parent, `m_val = v0`, `m_custom_init = c`. -/
def mkRoot (v0 c : Int) : List (Option RedInst) := [some ⟨none, v0, c⟩]

def liveAt (s : List (Option RedInst)) (i : Nat) : Bool :=
  match s.getD i none with
  | some _ => true
  | none => false

/-- An event is valid when it touches a live instance and never destroys
the root (the root outlives the concurrent region). -/
def validEv (s : List (Option RedInst)) : RedEvent → Bool
  | .copy i => liveAt s i
  | .update i _ => liveAt s i
  | .destroy i => liveAt s i && i != 0

def validRun (step : List (Option RedInst) → RedEvent → List (Option RedInst)) :
    List (Option RedInst) → List RedEvent → Bool
  | _, [] => true
  | s, ev :: rest => validEv s ev && validRun step (step s ev) rest

def evAdd : RedEvent → Int
  | .update _ v => v
  | _ => 0

/-- Total of all values handed to `+=` across the event sequence. -/
def updatesSum (evs : List RedEvent) : Int := (evs.map evAdd).sum

def instVal : Option RedInst → Int
  | some inst => inst.val
  | none => 0

/-- Sum of the `m_val` fields of all live instances. -/
def liveVals (s : List (Option RedInst)) : Int := (s.map instVal).sum

/-- `get()` on the root instance: its `m_val`. -/
def rootGet (s : List (Option RedInst)) : Int :=
  match s.getD 0 none with
  | some inst => inst.val
  | none => 0

def allCopiesDestroyed (s : List (Option RedInst)) : Bool :=
  (s.drop 1).all (fun o => o.isNone)

/-- The parent chain is flat: the root (index 0) has a null parent and
every other live instance's parent is the root. -/
def FlatParents (s : List (Option RedInst)) : Prop :=
  (∀ inst, s.getD 0 none = some inst → inst.parent = none) ∧
  (∀ j inst, j ≠ 0 → s.getD j none = some inst → inst.parent = some 0)

theorem getD_some_lt {α : Type} (s : List (Option α)) (j : Nat) (r : α)
    (h : s.getD j none = some r) : j < s.length := by
  by_contra hge
  rw [List.getD_eq_default s none (by omega)] at h
  exact Option.noConfusion h

theorem getD_set_self {α : Type} (s : List (Option α)) (i : Nat) (x : Option α)
    (h : i < s.length) : (s.set i x).getD i none = x := by
  rw [List.getD_eq_getElem?_getD, List.getElem?_set_self h]
  rfl

theorem getD_set_ne {α : Type} (s : List (Option α)) (i j : Nat) (x : Option α)
    (h : i ≠ j) : (s.set i x).getD j none = s.getD j none := by
  rw [List.getD_eq_getElem?_getD, List.getElem?_set_ne h, ← List.getD_eq_getElem?_getD]

theorem getD_snoc_lt {α : Type} (s : List (Option α)) (x : Option α) (j : Nat)
    (h : j < s.length) : (s ++ [x]).getD j none = s.getD j none :=
  List.getD_append s [x] none j h

theorem getD_snoc_len {α : Type} (s : List (Option α)) (x : Option α) :
    (s ++ [x]).getD s.length none = x := by
  rw [List.getD_append_right s [x] none s.length (le_refl _), Nat.sub_self]
  rfl

theorem getD_snoc_gt {α : Type} (s : List (Option α)) (x : Option α) (j : Nat)
    (h : s.length < j) : (s ++ [x]).getD j none = none := by
  rw [List.getD_append_right s [x] none j (by omega)]
  rw [List.getD_eq_default]
  simp
  omega

theorem liveVals_set (s : List (Option RedInst)) : ∀ (i : Nat) (x : Option RedInst),
    i < s.length →
    liveVals (s.set i x) = liveVals s - instVal (s.getD i none) + instVal x := by
  induction s with
  | nil =>
    intro i x h
    simp at h
  | cons a t iht =>
    intro i x h
    cases i with
    | zero =>
      simp only [List.set_cons_zero, List.getD_cons_zero, liveVals, List.map_cons,
        List.sum_cons]
      ring
    | succ n =>
      simp only [List.set_cons_succ, List.getD_cons_succ]
      have hrec := iht n x (by simpa using h)
      simp only [liveVals, List.map_cons, List.sum_cons] at hrec ⊢
      omega

theorem liveVals_snoc (s : List (Option RedInst)) (x : Option RedInst) :
    liveVals (s ++ [x]) = liveVals s + instVal x := by
  simp [liveVals, List.map_append]

theorem flat_set_val (s : List (Option RedInst)) (j : Nat) (x y : RedInst)
    (hx : s.getD j none = some x) (hpar : y.parent = x.parent)
    (hf : FlatParents s) : FlatParents (s.set j (some y)) := by
  have hjl := getD_some_lt s j x hx
  constructor
  · intro r hr
    by_cases hj0 : j = 0
    · subst hj0
      rw [getD_set_self s 0 (some y) hjl] at hr
      cases hr
      rw [hpar]
      exact hf.1 x hx
    · rw [getD_set_ne s j 0 (some y) hj0] at hr
      exact hf.1 r hr
  · intro k r hk hr
    by_cases hjk : j = k
    · subst hjk
      rw [getD_set_self s j (some y) hjl] at hr
      cases hr
      rw [hpar]
      exact hf.2 j x hk hx
    · rw [getD_set_ne s j k (some y) hjk] at hr
      exact hf.2 k r hk hr

theorem flat_set_none (s : List (Option RedInst)) (j : Nat)
    (hf : FlatParents s) : FlatParents (s.set j none) := by
  by_cases hjl : j < s.length
  · constructor
    · intro r hr
      by_cases hj0 : j = 0
      · subst hj0
        rw [getD_set_self s 0 none hjl] at hr
        exact Option.noConfusion hr
      · rw [getD_set_ne s j 0 none hj0] at hr
        exact hf.1 r hr
    · intro k r hk hr
      by_cases hjk : j = k
      · subst hjk
        rw [getD_set_self s j none hjl] at hr
        exact Option.noConfusion hr
      · rw [getD_set_ne s j k none hjk] at hr
        exact hf.2 k r hk hr
  · rw [List.set_eq_of_length_le (by omega)]
    exact hf

theorem flat_snoc (s : List (Option RedInst)) (y : RedInst)
    (hlen : 0 < s.length) (hpar : y.parent = some 0)
    (hf : FlatParents s) : FlatParents (s ++ [some y]) := by
  constructor
  · intro r hr
    rw [getD_snoc_lt s _ 0 hlen] at hr
    exact hf.1 r hr
  · intro k r hk hr
    by_cases hkl : k < s.length
    · rw [getD_snoc_lt s _ k hkl] at hr
      exact hf.2 k r hk hr
    · by_cases hke : k = s.length
      · subst hke
        rw [getD_snoc_len] at hr
        cases hr
        exact hpar
      · rw [getD_snoc_gt s _ k (by omega)] at hr
        exact Option.noConfusion hr

/-- One step of any tree-merge reducer preserves the flat parent chain,
whatever the class-specific copy-initialization and combine functions. -/
theorem redStep_flat (cInit : RedInst → Int) (comb upd : Int → Int → Int)
    (s : List (Option RedInst)) (ev : RedEvent)
    (hf : FlatParents s) : FlatParents (redStep cInit comb upd s ev) := by
  cases ev with
  | copy i =>
    cases heq : s.getD i none with
    | none =>
      simp only [redStep, heq]
      exact hf
    | some inst =>
      simp only [redStep, heq]
      have hlen : 0 < s.length := by
        have := getD_some_lt s i inst heq
        omega
      apply flat_snoc s _ hlen ?_ hf
      cases hp : inst.parent with
      | some p =>
        by_cases hi0 : i = 0
        · subst hi0
          have := hf.1 inst heq
          rw [this] at hp
          exact Option.noConfusion hp
        · have := hf.2 i inst hi0 heq
          rw [this] at hp
          cases hp
          simp
      | none =>
        by_cases hi0 : i = 0
        · subst hi0
          simp
        · have := hf.2 i inst hi0 heq
          rw [this] at hp
          exact Option.noConfusion hp
  | update i v =>
    cases heq : s.getD i none with
    | none =>
      simp only [redStep, heq]
      exact hf
    | some inst =>
      simp only [redStep, heq]
      exact flat_set_val s i inst _ heq rfl hf
  | destroy i =>
    cases heq : s.getD i none with
    | none =>
      simp only [redStep, heq]
      exact hf
    | some inst =>
      simp only [redStep, heq]
      have hf1 := flat_set_none s i hf
      cases hp : inst.parent with
      | some p =>
        simp only [hp]
        cases heq2 : (s.set i none).getD p none with
        | none =>
          simp only [heq2]
          exact hf1
        | some pinst =>
          simp only [heq2]
          exact flat_set_val (s.set i none) p pinst _ heq2 rfl hf1
      | none =>
        simp only [hp]
        exact hf1

theorem redRun_flat (cInit : RedInst → Int) (comb upd : Int → Int → Int) :
    ∀ (evs : List RedEvent) (s : List (Option RedInst)),
    FlatParents s → FlatParents (redRun cInit comb upd s evs) := by
  intro evs
  induction evs with
  | nil => intro s hf; exact hf
  | cons ev rest ihr =>
    intro s hf
    exact ihr _ (redStep_flat cInit comb upd s ev hf)

/-- C9: for every tree-merge reducer (the parent logic is identical in all
five `omp_reduce` classes, so `cInit`, `comb`, `upd` are arbitrary), after
any event sequence starting from a single root the parent chain is flat:
the root's parent stays null, and every other live instance — however many
generations of copies deep it was created — has the root as its parent, so
each destructor fold lands in the root in a single step. -/
theorem tree_reducer_flat_parent_chain (cInit : RedInst → Int)
    (comb upd : Int → Int → Int) (v0 c : Int) (evs : List RedEvent) :
    FlatParents (redRun cInit comb upd (mkRoot v0 c) evs) := by
  apply redRun_flat cInit comb upd evs (mkRoot v0 c)
  constructor
  · intro r hr
    cases hr
    rfl
  · intro j r hj hr
    rw [mkRoot, List.getD_eq_default] at hr
    · exact Option.noConfusion hr
    · simpa using Nat.one_le_iff_ne_zero.mpr hj

/-- `ReduceSum<omp_reduce, T>` at `T = Int`: the copy constructor stores
`other.m_custom_init` into the copy's `m_val` (not `other.m_val`), and
both `operator+=` and the destructor fold add. -/
def ReduceSum_omp_step : List (Option RedInst) → RedEvent → List (Option RedInst) :=
  redStep (fun other => other.customInit) (fun a b => a + b) (fun a b => a + b)

/-- Accounting invariant for the sum reducer: the parent chain is flat,
the root is live with `m_custom_init = 0` (the default initializer), every
live instance has `m_custom_init = 0`, and the values of the live
instances sum to the initial value plus everything added so far. -/
def SumInv (v0 acc : Int) (s : List (Option RedInst)) : Prop :=
  FlatParents s ∧
  (∃ r, s.getD 0 none = some r ∧ r.customInit = 0) ∧
  (∀ j inst, s.getD j none = some inst → inst.customInit = 0) ∧
  liveVals s = v0 + acc

theorem sumStep_inv (v0 acc : Int) (s : List (Option RedInst)) (ev : RedEvent)
    (hv : validEv s ev = true) (hinv : SumInv v0 acc s) :
    SumInv v0 (acc + evAdd ev) (ReduceSum_omp_step s ev) := by
  obtain ⟨hflat, ⟨r0, hr0, hr0c⟩, hc0, hsum⟩ := hinv
  have h0len : 0 < s.length := getD_some_lt s 0 r0 hr0
  cases ev with
  | copy i =>
    cases heq : s.getD i none with
    | none =>
      rw [List.getD_eq_getElem?_getD] at heq
      simp [validEv, liveAt, heq] at hv
    | some inst =>
      refine ⟨redStep_flat _ _ _ s (.copy i) hflat, ?_, ?_, ?_⟩
      · simp only [ReduceSum_omp_step, redStep, heq]
        exact ⟨r0, by rw [getD_snoc_lt s _ 0 h0len]; exact hr0, hr0c⟩
      · simp only [ReduceSum_omp_step, redStep, heq]
        intro j r hr
        by_cases hjl : j < s.length
        · rw [getD_snoc_lt s _ j hjl] at hr
          exact hc0 j r hr
        · by_cases hje : j = s.length
          · subst hje
            rw [getD_snoc_len] at hr
            cases hr
            exact hc0 i inst heq
          · rw [getD_snoc_gt s _ j (by omega)] at hr
            exact Option.noConfusion hr
      · simp only [ReduceSum_omp_step, redStep, heq]
        rw [liveVals_snoc]
        have hci : inst.customInit = 0 := hc0 i inst heq
        simp only [instVal, hci, evAdd]
        omega
  | update i v =>
    cases heq : s.getD i none with
    | none =>
      rw [List.getD_eq_getElem?_getD] at heq
      simp [validEv, liveAt, heq] at hv
    | some inst =>
      refine ⟨redStep_flat _ _ _ s (.update i v) hflat, ?_, ?_, ?_⟩
      · simp only [ReduceSum_omp_step, redStep, heq]
        by_cases hi0 : i = 0
        · subst hi0
          refine ⟨_, getD_set_self s 0 _ h0len, ?_⟩
          rw [hr0] at heq
          cases heq
          exact hr0c
        · exact ⟨r0, by rw [getD_set_ne s i 0 _ hi0]; exact hr0, hr0c⟩
      · simp only [ReduceSum_omp_step, redStep, heq]
        intro j r hr
        by_cases hij : i = j
        · subst hij
          rw [getD_set_self s i _ (getD_some_lt s i inst heq)] at hr
          cases hr
          exact hc0 i inst heq
        · rw [getD_set_ne s i j _ hij] at hr
          exact hc0 j r hr
      · simp only [ReduceSum_omp_step, redStep, heq]
        rw [liveVals_set s i _ (getD_some_lt s i inst heq), heq]
        simp only [instVal, evAdd]
        omega
  | destroy i =>
    cases heq : s.getD i none with
    | none =>
      rw [List.getD_eq_getElem?_getD] at heq
      simp [validEv, liveAt, heq] at hv
    | some inst =>
      have hne : i ≠ 0 := by
        simp only [validEv, Bool.and_eq_true, bne_iff_ne] at hv
        exact hv.2
      have hpar : inst.parent = some 0 := hflat.2 i inst hne heq
      have heq2 : (s.set i none).getD 0 none = some r0 := by
        rw [getD_set_ne s i 0 none hne]
        exact hr0
      refine ⟨redStep_flat _ _ _ s (.destroy i) hflat, ?_, ?_, ?_⟩
      · simp only [ReduceSum_omp_step, redStep, heq, hpar, heq2]
        exact ⟨_, getD_set_self (s.set i none) 0 _ (by rw [List.length_set]; omega), hr0c⟩
      · simp only [ReduceSum_omp_step, redStep, heq, hpar, heq2]
        intro j r hr
        by_cases hj0 : 0 = j
        · subst hj0
          rw [getD_set_self (s.set i none) 0 _ (by rw [List.length_set]; omega)] at hr
          cases hr
          exact hr0c
        · rw [getD_set_ne (s.set i none) 0 j _ hj0] at hr
          by_cases hij : i = j
          · subst hij
            rw [getD_set_self s i none (getD_some_lt s i inst heq)] at hr
            exact Option.noConfusion hr
          · rw [getD_set_ne s i j none hij] at hr
            exact hc0 j r hr
      · simp only [ReduceSum_omp_step, redStep, heq, hpar, heq2]
        rw [liveVals_set (s.set i none) 0 _ (by rw [List.length_set]; omega), heq2,
          liveVals_set s i none (getD_some_lt s i inst heq), heq]
        simp only [instVal, evAdd]
        omega

theorem sumRun_inv (v0 : Int) : ∀ (evs : List RedEvent) (acc : Int)
    (s : List (Option RedInst)),
    validRun ReduceSum_omp_step s evs = true → SumInv v0 acc s →
    SumInv v0 (acc + updatesSum evs) (evs.foldl ReduceSum_omp_step s) := by
  intro evs
  induction evs with
  | nil =>
    intro acc s hv hinv
    simpa [updatesSum] using hinv
  | cons ev rest ihr =>
    intro acc s hv hinv
    rw [validRun, Bool.and_eq_true] at hv
    have hstep := sumStep_inv v0 acc s ev hv.1 hinv
    have hrec := ihr (acc + evAdd ev) (ReduceSum_omp_step s ev) hv.2 hstep
    rw [List.foldl_cons]
    have harith : acc + evAdd ev + updatesSum rest = acc + updatesSum (ev :: rest) := by
      simp only [updatesSum, List.map_cons, List.sum_cons]
      ring
    rwa [harith] at hrec

theorem liveVals_all_dead (t : List (Option RedInst))
    (hall : ∀ o ∈ t, o.isNone = true) : liveVals t = 0 := by
  induction t with
  | nil => rfl
  | cons o t iht =>
    have ho := hall o (List.mem_cons_self o t)
    have hrest := iht (fun x hx => hall x (List.mem_cons_of_mem o hx))
    cases o with
    | some a => simp at ho
    | none =>
      simp only [liveVals, List.map_cons, List.sum_cons] at hrest ⊢
      simpa [instVal] using hrest

/-- C4: for the tree-merge sum reducer (`ReduceSum<omp_reduce, T>`),
starting from a root constructed with initial value `v0` (default
initializer `T() = 0`), making any number of copies (of the root or of
other copies), applying `+=` with any values distributed across the live
instances, and destroying every copy, the root's `get()` returns `v0` plus
the sum of all added values: each copy starts at `m_custom_init = 0`, so
each contribution is folded into the root exactly once and nothing is
double-counted. -/
theorem reduceSum_tree_merge_correct (v0 : Int) (evs : List RedEvent)
    (hvalid : validRun ReduceSum_omp_step (mkRoot v0 0) evs = true)
    (hdone : allCopiesDestroyed (evs.foldl ReduceSum_omp_step (mkRoot v0 0)) = true) :
    rootGet (evs.foldl ReduceSum_omp_step (mkRoot v0 0)) = v0 + updatesSum evs := by
  have hinv0 : SumInv v0 0 (mkRoot v0 0) := by
    refine ⟨⟨?_, ?_⟩, ⟨⟨none, v0, 0⟩, rfl, rfl⟩, ?_, ?_⟩
    · intro r hr
      cases hr
      rfl
    · intro j r hj hr
      rw [mkRoot, List.getD_eq_default] at hr
      · exact Option.noConfusion hr
      · simpa using Nat.one_le_iff_ne_zero.mpr hj
    · intro j inst hr
      by_cases hj : j = 0
      · subst hj
        cases hr
        rfl
      · rw [mkRoot, List.getD_eq_default] at hr
        · exact Option.noConfusion hr
        · simpa using Nat.one_le_iff_ne_zero.mpr hj
    · simp [liveVals, mkRoot, instVal]
  have hfin := sumRun_inv v0 evs 0 (mkRoot v0 0) hvalid hinv0
  obtain ⟨hflatF, ⟨r, hrF, hrc⟩, hcF, hsumF⟩ := hfin
  have hne : evs.foldl ReduceSum_omp_step (mkRoot v0 0) ≠ [] := by
    intro hnil
    rw [hnil] at hrF
    exact Option.noConfusion hrF
  obtain ⟨x, t, hxt⟩ := List.exists_cons_of_ne_nil hne
  rw [hxt] at hrF hsumF hdone ⊢
  rw [List.getD_cons_zero] at hrF
  subst hrF
  have htdead : liveVals t = 0 := by
    apply liveVals_all_dead
    intro o ho
    rw [allCopiesDestroyed] at hdone
    simp only [List.drop_succ_cons, List.drop_zero, List.all_eq_true] at hdone
    exact hdone o ho
  have hlv : liveVals (some r :: t) = r.val := by
    simp only [liveVals, List.map_cons, List.sum_cons, instVal] at htdead ⊢
    omega
  rw [hlv] at hsumF
  simp only [rootGet, List.getD_cons_zero]
  omega

def c4evs : List RedEvent :=
  [RedEvent.copy 0, RedEvent.copy 0, RedEvent.update 1 10, RedEvent.copy 1,
    RedEvent.update 2 20, RedEvent.update 3 7, RedEvent.destroy 3,
    RedEvent.destroy 1, RedEvent.destroy 2]

theorem reduceSum_tree_merge_correct_witness :
    validRun ReduceSum_omp_step (mkRoot 5 0) c4evs = true ∧
    allCopiesDestroyed (c4evs.foldl ReduceSum_omp_step (mkRoot 5 0)) = true ∧
    rootGet (c4evs.foldl ReduceSum_omp_step (mkRoot 5 0)) = 5 + updatesSum c4evs :=
  ⟨by decide, by decide, reduceSum_tree_merge_correct 5 c4evs (by decide) (by decide)⟩

/-!
The slot-pool (`omp_reduce_ordered`) reducers.  Each instance sees the
shared per-thread slot block (`m_blockdata` / `m_idxdata`, one cache-line
isolated slot per thread, modelled as a list with one entry per thread)
and a cached accumulator `m_reduced_val` (plus `m_reduced_idx` for the
loc variants, and `m_init_val` for the sum).  `operator T()` re-folds
every slot into the accumulator and returns it; the slots are only read.
The combine rules `RAJA::reduce::min/max/minloc/maxloc/sum` live in
`RAJA/pattern/reduce.hpp`, which is not under `src/`; they are modelled
from the spec: the accumulator takes the new value only when it strictly
wins, so on ties the existing value and location are kept.
-/

structure OmpOrderedMin where
  slots : List Int
  m_reduced_val : Int
deriving DecidableEq, Repr

/-- `ReduceMin<omp_reduce_ordered>::operator T()`: fold every slot into
`m_reduced_val` with the min combine rule and return it. -/
def OmpOrderedMin.get (s : OmpOrderedMin) : OmpOrderedMin × Int :=
  let rv := s.slots.foldl min s.m_reduced_val
  ({ s with m_reduced_val := rv }, rv)

structure OmpOrderedMax where
  slots : List Int
  m_reduced_val : Int
deriving DecidableEq, Repr

/-- `ReduceMax<omp_reduce_ordered>::operator T()`. -/
def OmpOrderedMax.get (s : OmpOrderedMax) : OmpOrderedMax × Int :=
  let rv := s.slots.foldl max s.m_reduced_val
  ({ s with m_reduced_val := rv }, rv)

/-- Modelled from the spec: `RAJA::reduce::minloc` — take the new
value/location only when the new value strictly wins; ties keep the
existing location. -/
def minlocComb (c s : Int × Int) : Int × Int := if s.1 < c.1 then s else c

/-- Modelled from the spec: `RAJA::reduce::maxloc`. -/
def maxlocComb (c s : Int × Int) : Int × Int := if c.1 < s.1 then s else c

structure OmpOrderedMinLoc where
  slots : List (Int × Int)
  m_reduced_val : Int
  m_reduced_idx : Int
deriving DecidableEq, Repr

/-- `ReduceMinLoc<omp_reduce_ordered>::operator T()`: fold every
(value, index) slot pair into the accumulator pair and return the value. -/
def OmpOrderedMinLoc.get (s : OmpOrderedMinLoc) : OmpOrderedMinLoc × Int :=
  let r := s.slots.foldl minlocComb (s.m_reduced_val, s.m_reduced_idx)
  ({ s with m_reduced_val := r.1, m_reduced_idx := r.2 }, r.1)

structure OmpOrderedMaxLoc where
  slots : List (Int × Int)
  m_reduced_val : Int
  m_reduced_idx : Int
deriving DecidableEq, Repr

/-- `ReduceMaxLoc<omp_reduce_ordered>::operator T()`. -/
def OmpOrderedMaxLoc.get (s : OmpOrderedMaxLoc) : OmpOrderedMaxLoc × Int :=
  let r := s.slots.foldl maxlocComb (s.m_reduced_val, s.m_reduced_idx)
  ({ s with m_reduced_val := r.1, m_reduced_idx := r.2 }, r.1)

structure OmpOrderedSum where
  slots : List Int
  m_init_val : Int
  m_reduced_val : Int
deriving DecidableEq, Repr

/-- `ReduceSum<omp_reduce_ordered>::operator T()`: sum the slots into a
temporary, set `m_reduced_val = m_init_val + tmp` and return it. -/
def OmpOrderedSum.get (s : OmpOrderedSum) : OmpOrderedSum × Int :=
  let tmp := s.slots.foldl (fun a b => a + b) 0
  ({ s with m_reduced_val := s.m_init_val + tmp }, s.m_init_val + tmp)

/-- `operator T()` of the five tree-merge (`omp_reduce`) reducer classes:
return `m_val`, touching nothing. -/
def treeGet (inst : RedInst) : RedInst × Int := (inst, inst.val)

theorem foldl_min_le (l : List Int) : ∀ (a : Int),
    l.foldl min a ≤ a ∧ ∀ x ∈ l, l.foldl min a ≤ x := by
  induction l with
  | nil =>
    intro a
    exact ⟨le_refl a, by simp⟩
  | cons x t iht =>
    intro a
    rw [List.foldl_cons]
    obtain ⟨h1, h2⟩ := iht (min a x)
    refine ⟨le_trans h1 (min_le_left a x), ?_⟩
    intro y hy
    rcases List.mem_cons.mp hy with hy | hy
    · subst hy
      exact le_trans h1 (min_le_right a y)
    · exact h2 y hy

theorem foldl_min_fix (l : List Int) : ∀ (a : Int), (∀ x ∈ l, a ≤ x) →
    l.foldl min a = a := by
  induction l with
  | nil =>
    intro a _
    rfl
  | cons x t iht =>
    intro a h
    rw [List.foldl_cons, min_eq_left (h x (List.mem_cons_self x t))]
    exact iht a (fun y hy => h y (List.mem_cons_of_mem x hy))

theorem foldl_max_ge (l : List Int) : ∀ (a : Int),
    a ≤ l.foldl max a ∧ ∀ x ∈ l, x ≤ l.foldl max a := by
  induction l with
  | nil =>
    intro a
    exact ⟨le_refl a, by simp⟩
  | cons x t iht =>
    intro a
    rw [List.foldl_cons]
    obtain ⟨h1, h2⟩ := iht (max a x)
    refine ⟨le_trans (le_max_left a x) h1, ?_⟩
    intro y hy
    rcases List.mem_cons.mp hy with hy | hy
    · subst hy
      exact le_trans (le_max_right a y) h1
    · exact h2 y hy

theorem foldl_max_fix (l : List Int) : ∀ (a : Int), (∀ x ∈ l, x ≤ a) →
    l.foldl max a = a := by
  induction l with
  | nil =>
    intro a _
    rfl
  | cons x t iht =>
    intro a h
    rw [List.foldl_cons, max_eq_left (h x (List.mem_cons_self x t))]
    exact iht a (fun y hy => h y (List.mem_cons_of_mem x hy))

theorem foldl_minloc_le (l : List (Int × Int)) : ∀ (c : Int × Int),
    (l.foldl minlocComb c).1 ≤ c.1 ∧ ∀ x ∈ l, (l.foldl minlocComb c).1 ≤ x.1 := by
  induction l with
  | nil =>
    intro c
    exact ⟨le_refl c.1, by simp⟩
  | cons x t iht =>
    intro c
    rw [List.foldl_cons]
    obtain ⟨h1, h2⟩ := iht (minlocComb c x)
    have hcx : (minlocComb c x).1 ≤ c.1 ∧ (minlocComb c x).1 ≤ x.1 := by
      rw [minlocComb]
      split_ifs with hlt
      · exact ⟨le_of_lt hlt, le_refl x.1⟩
      · exact ⟨le_refl c.1, by omega⟩
    refine ⟨le_trans h1 hcx.1, ?_⟩
    intro y hy
    rcases List.mem_cons.mp hy with hy | hy
    · subst hy
      exact le_trans h1 hcx.2
    · exact h2 y hy

theorem foldl_minloc_fix (l : List (Int × Int)) : ∀ (c : Int × Int),
    (∀ x ∈ l, c.1 ≤ x.1) → l.foldl minlocComb c = c := by
  induction l with
  | nil =>
    intro c _
    rfl
  | cons x t iht =>
    intro c h
    rw [List.foldl_cons]
    have hstep : minlocComb c x = c := by
      rw [minlocComb, if_neg (not_lt.mpr (h x (List.mem_cons_self x t)))]
    rw [hstep]
    exact iht c (fun y hy => h y (List.mem_cons_of_mem x hy))

theorem foldl_maxloc_ge (l : List (Int × Int)) : ∀ (c : Int × Int),
    c.1 ≤ (l.foldl maxlocComb c).1 ∧ ∀ x ∈ l, x.1 ≤ (l.foldl maxlocComb c).1 := by
  induction l with
  | nil =>
    intro c
    exact ⟨le_refl c.1, by simp⟩
  | cons x t iht =>
    intro c
    rw [List.foldl_cons]
    obtain ⟨h1, h2⟩ := iht (maxlocComb c x)
    have hcx : c.1 ≤ (maxlocComb c x).1 ∧ x.1 ≤ (maxlocComb c x).1 := by
      rw [maxlocComb]
      split_ifs with hlt
      · exact ⟨le_of_lt hlt, le_refl x.1⟩
      · exact ⟨le_refl c.1, by omega⟩
    refine ⟨le_trans hcx.1 h1, ?_⟩
    intro y hy
    rcases List.mem_cons.mp hy with hy | hy
    · subst hy
      exact le_trans hcx.2 h1
    · exact h2 y hy

theorem foldl_maxloc_fix (l : List (Int × Int)) : ∀ (c : Int × Int),
    (∀ x ∈ l, x.1 ≤ c.1) → l.foldl maxlocComb c = c := by
  induction l with
  | nil =>
    intro c _
    rfl
  | cons x t iht =>
    intro c h
    rw [List.foldl_cons]
    have hstep : maxlocComb c x = c := by
      rw [maxlocComb, if_neg (not_lt.mpr (h x (List.mem_cons_self x t)))]
    rw [hstep]
    exact iht c (fun y hy => h y (List.mem_cons_of_mem x hy))

/-- C5: for every reducer of both flavors and all five operator kinds,
calling `get()` twice with no intervening update returns the same value
both times.  The tree-merge classes return `m_val` without mutating
anything; each slot-pool (`omp_reduce_ordered`) class re-folds the
per-thread slots into the instance accumulator on every call but never
writes a slot, so the second fold is a fixed point and the repeated read
yields an unchanged result. -/
theorem reducer_get_idempotent :
    (∀ inst : RedInst, (treeGet (treeGet inst).1).2 = (treeGet inst).2) ∧
    (∀ s : OmpOrderedMin,
      (OmpOrderedMin.get (OmpOrderedMin.get s).1).2 = (OmpOrderedMin.get s).2 ∧
      (OmpOrderedMin.get s).1.slots = s.slots) ∧
    (∀ s : OmpOrderedMax,
      (OmpOrderedMax.get (OmpOrderedMax.get s).1).2 = (OmpOrderedMax.get s).2 ∧
      (OmpOrderedMax.get s).1.slots = s.slots) ∧
    (∀ s : OmpOrderedMinLoc,
      (OmpOrderedMinLoc.get (OmpOrderedMinLoc.get s).1).2 = (OmpOrderedMinLoc.get s).2 ∧
      (OmpOrderedMinLoc.get s).1.slots = s.slots) ∧
    (∀ s : OmpOrderedMaxLoc,
      (OmpOrderedMaxLoc.get (OmpOrderedMaxLoc.get s).1).2 = (OmpOrderedMaxLoc.get s).2 ∧
      (OmpOrderedMaxLoc.get s).1.slots = s.slots) ∧
    (∀ s : OmpOrderedSum,
      (OmpOrderedSum.get (OmpOrderedSum.get s).1).2 = (OmpOrderedSum.get s).2 ∧
      (OmpOrderedSum.get s).1.slots = s.slots) := by
  refine ⟨fun inst => rfl, fun s => ⟨?_, rfl⟩, fun s => ⟨?_, rfl⟩, fun s => ⟨?_, rfl⟩,
    fun s => ⟨?_, rfl⟩, fun s => ⟨rfl, rfl⟩⟩
  · simp only [OmpOrderedMin.get]
    obtain ⟨hle, hmem⟩ := foldl_min_le s.slots s.m_reduced_val
    exact foldl_min_fix s.slots _ hmem
  · simp only [OmpOrderedMax.get]
    obtain ⟨hle, hmem⟩ := foldl_max_ge s.slots s.m_reduced_val
    exact foldl_max_fix s.slots _ hmem
  · simp only [OmpOrderedMinLoc.get]
    obtain ⟨hle, hmem⟩ := foldl_minloc_le s.slots (s.m_reduced_val, s.m_reduced_idx)
    have hfix := foldl_minloc_fix s.slots
      ((s.slots.foldl minlocComb (s.m_reduced_val, s.m_reduced_idx)).1,
        (s.slots.foldl minlocComb (s.m_reduced_val, s.m_reduced_idx)).2)
      (fun x hx => hmem x hx)
    rw [hfix]
  · simp only [OmpOrderedMaxLoc.get]
    obtain ⟨hle, hmem⟩ := foldl_maxloc_ge s.slots (s.m_reduced_val, s.m_reduced_idx)
    have hfix := foldl_maxloc_fix s.slots
      ((s.slots.foldl maxlocComb (s.m_reduced_val, s.m_reduced_idx)).1,
        (s.slots.foldl maxlocComb (s.m_reduced_val, s.m_reduced_idx)).2)
      (fun x hx => hmem x hx)
    rw [hfix]

end RAJA
